import Mathlib

/-!
Formal model (shallow embedding) of the hybrid recommendation engine found in
`src/scripts` of this repository: `shared_utils.py`, `recommend_master.py`,
`recommend_cart_based.py` and `recommend_profile_based.py`.

Modelling conventions:
* machine floats are modelled by exact rationals (`ℚ`); `float32` casts are the
  identity in this exact model;
* `np.exp` is not a rational function, so every definition that uses it takes an
  explicit parameter `ex : ℚ → ℚ` standing for the real exponential; theorems
  that need facts about the exponential (such as positivity) take them as
  hypotheses, and concrete evaluations instantiate `ex` with a computable
  positive function;
* `faiss.IndexFlatIP.search` is modelled as exact top-k selection by inner
  product, ties broken by row index (stable sort over the row enumeration);
* `faiss.normalize_L2` divides by the L2 norm.  The square root of a rational
  is modelled by `ratSqrt`, which is exact on rationals whose reduced numerator
  and denominator are perfect squares (all unit-norm concrete inputs used below
  have `ratSqrt (dot v v) = 1`);
* pandas data frames of interaction rows are modelled as lists of `Event`
  records in frame order; the user-embedding cache parquet file is a list of
  `CacheRow` records; Python dicts keyed by product id are association lists
  with insertion-order append and in-place replacement;
* functions that `raise` in Python return `Except String`.
-/

/-- One row of the interaction log: `(user_id, product_id, event_type, timestamp)`.
Timestamps are in seconds, as produced by `pd.to_datetime(...).astype("int64") / 1e9`. -/
structure Event where
  user_id : String
  product_id : String
  event_type : String
  timestamp : ℚ
deriving DecidableEq, Repr

/-- A candidate recommendation `{"product_id": ..., "score": ..., "source_event": ...}`. -/
structure Candidate where
  product_id : String
  score : ℚ
  source_event : String
deriving DecidableEq, Repr

/-- A dense embedding vector (one row of a numpy matrix). -/
abbrev Vec := List ℚ

/-- A numpy matrix, as a list of rows. -/
abbrev Mat := List Vec

/-- One row of the user-embedding cache `data/user_embeddings.parquet`. -/
structure CacheRow where
  user_id : String
  embedding : Vec
  last_event_ts : ℚ
deriving DecidableEq, Repr

/-- The persisted user-embedding cache. -/
abbrev Cache := List CacheRow

/-- Inner product of two vectors (`np.dot` on rows of equal length). -/
def dot (v w : Vec) : ℚ := (List.zipWith (· * ·) v w).sum

/-- Elementwise sum of two vectors. -/
def vadd (v w : Vec) : Vec := List.zipWith (· + ·) v w

/-- Scalar multiple of a vector (`v * w` with numpy broadcasting). -/
def smul (c : ℚ) (v : Vec) : Vec := v.map (fun x => c * x)

/-- Division of a vector by a scalar. -/
def vdiv (v : Vec) (c : ℚ) : Vec := v.map (fun x => x / c)

/-- Elementwise sum of a nonempty list of vectors (`np.sum(vs, axis=0)`). -/
def vsum : List Vec → Vec
  | [] => []
  | [v] => v
  | v :: w :: rest => vadd v (vsum (w :: rest))

/-- Greatest `k` with `k * k ≤ n`: a kernel-reducible model of the natural
square root, exact on perfect squares. -/
def natSqrt (n : Nat) : Nat :=
  ((List.range (n + 1)).filter (fun k => decide (k * k ≤ n))).foldl max 0

/-- Model of the nonnegative real square root on rationals.  Exact whenever the
reduced numerator and denominator of `q` are perfect squares; theorems that
need exactness assume `ratSqrt q * ratSqrt q = q`. -/
def ratSqrt (q : ℚ) : ℚ := (natSqrt q.num.toNat : ℚ) / (natSqrt q.den : ℚ)

/-- Models `faiss.normalize_L2` applied to one row: divide by the L2 norm. -/
def normalizeL2 (v : Vec) : Vec := v.map (fun x => x / ratSqrt (dot v v))

/-- The `EVENT_WEIGHTS` table of `shared_utils.py` with its `.get(e, 1)` /
`.fillna(1)` default: purchase=5, add_to_cart=3, view=1, anything else 1. -/
def eventWeight (etype : String) : ℚ :=
  if etype = "purchase" then 5
  else if etype = "add_to_cart" then 3
  else if etype = "view" then 1
  else 1

/-- The filter `interactions_df[interactions_df["user_id"] == user_id]`. -/
def filterUser (interactions : List Event) (uid : String) : List Event :=
  interactions.filter (fun e => decide (e.user_id = uid))

/-- Maximum timestamp of a list of events (`df["timestamp"].max()`); `0` on an
empty frame (the callers modelled here only use it on nonempty frames). -/
def maxTimestamp : List Event → ℚ
  | [] => 0
  | e :: rest => rest.foldl (fun a x => max a x.timestamp) e.timestamp

/-- Stable insertion of `c` into a list sorted descending by key `f`:
`c` is placed before the first element whose key is not greater than its own,
so elements inserted later sink below earlier ones of equal key. -/
def insertByDesc (f : α → ℚ) (c : α) : List α → List α
  | [] => [c]
  | x :: xs => if f c < f x then x :: insertByDesc f c xs else c :: x :: xs

/-- Stable sort, descending by key `f`: models both `sorted(..., reverse=True)`
and pandas `sort_values(..., ascending=False)` (both stable). -/
def sortByDesc (f : α → ℚ) (l : List α) : List α := l.foldr (insertByDesc f) []

/-- Models `shared_utils.compute_event_probabilities`: attach to each row the
probability `base_weight * exp(-decay_rate * delta_days)` normalized by the sum
over all rows, where `delta_days` counts from the row's timestamp to the
wall-clock `now` passed in by the environment. -/
def computeEventProbabilities (ex : ℚ → ℚ) (now : ℚ) (decay_rate : ℚ)
    (df : List Event) : List (Event × ℚ) :=
  let withW := df.map (fun e =>
    (e, eventWeight e.event_type * ex (-(decay_rate * ((now - e.timestamp) / 86400)))))
  let total := (withW.map (fun r => r.2)).sum
  withW.map (fun r => (r.1, r.2 / total))

/-- The dict comprehension `{pid: idx for idx, pid in enumerate(product_ids)}`:
maps a product id to the index of its last occurrence. -/
def pidToIndex (pids : List String) (pid : String) : Option Nat :=
  ((pids.enum.filter (fun p => decide (p.2 = pid))).getLast?).map (fun p => p.1)

/-- The lookups `product_embeddings[product_id_to_index[pid]]` for each event's
product id; a missing key or row raises (modelled as `Except.error`). -/
def lookupVectors (idx : String → Option Nat) (P : Mat) :
    List String → Except String (List Vec)
  | [] => .ok []
  | pid :: rest =>
    match idx pid with
    | none => .error ("KeyError: " ++ pid)
    | some i =>
      match P.get? i with
      | none => .error ("IndexError: " ++ pid)
      | some v => (lookupVectors idx P rest).map (fun vs => v :: vs)

/-- Models `shared_utils.compute_user_embedding`: filter to the user's events,
weight each by event type, optionally decay by `exp(-0.05 * (now - t))` where
`now` is the user's own latest event timestamp, and return the weighted average
of the corresponding product vectors. -/
def computeUserEmbedding (ex : ℚ → ℚ) (uid : String) (interactions : List Event)
    (P : Mat) (idx : String → Option Nat) (apply_time_decay : Bool) :
    Except String Vec :=
  let user_data := filterUser interactions uid
  if user_data = [] then .error ("No interactions found for user " ++ uid)
  else
    let weights0 := user_data.map (fun e => eventWeight e.event_type)
    let weights :=
      if apply_time_decay then
        let now := maxTimestamp user_data
        List.zipWith (fun w e => w * ex (-(1/20 * (now - e.timestamp)))) weights0 user_data
      else weights0
    match lookupVectors idx P (user_data.map (fun e => e.product_id)) with
    | .error e => .error e
    | .ok vectors =>
      let weighted := List.zipWith (fun v w => smul w v) vectors weights
      .ok (vdiv (vsum weighted) weights.sum)

/-- Follows the spec's words (section 4.2): upsert the cache mapping keyed by
`user_id` — replace the stored vector and timestamp if an entry is present,
append a new entry if absent.  Declared separately from the code-shaped update
inside `getOrBuildUserEmbedding` so the two can be compared. -/
def upsertSpec (cache : Cache) (uid : String) (v : Vec) (ts : ℚ) : Cache :=
  if cache.any (fun row => decide (row.user_id = uid)) then
    cache.map (fun row =>
      if row.user_id = uid then { user_id := row.user_id, embedding := v, last_event_ts := ts }
      else row)
  else cache ++ [{ user_id := uid, embedding := v, last_event_ts := ts }]

/-- Models `shared_utils.get_or_build_user_embedding`, with the interaction log
and the embedding dataset passed explicitly and the cache parquet file threaded
as state.  Raises (`Except.error`) when the user has no interactions; returns
the cached vector and the unchanged cache on a fresh hit; otherwise recomputes
and writes back using the code's three-branch update (empty cache, replace in
place, append). -/
def getOrBuildUserEmbedding (ex : ℚ → ℚ) (interactions : List Event)
    (pids : List String) (P : Mat) (uid : String) (force : Bool) (cache : Cache) :
    Except String (Vec × Cache) :=
  let user_df := filterUser interactions uid
  if user_df = [] then .error ("No interactions found for user " ++ uid)
  else
    let last_event_ts := maxTimestamp user_df
    let rebuild : Except String (Vec × Cache) :=
      match computeUserEmbedding ex uid interactions P (pidToIndex pids) true with
      | .error e => .error e
      | .ok user_vector =>
        let newRow : CacheRow :=
          { user_id := uid, embedding := user_vector, last_event_ts := last_event_ts }
        let cacheOut :=
          if cache = [] then [newRow]
          else if cache.any (fun row => decide (row.user_id = uid)) then
            cache.map (fun row =>
              if row.user_id = uid then
                { row with embedding := user_vector, last_event_ts := last_event_ts }
              else row)
          else cache ++ [newRow]
        .ok (user_vector, cacheOut)
    match cache.find? (fun row => decide (row.user_id = uid)) with
    | some row =>
      if force = false ∧ last_event_ts ≤ row.last_event_ts then .ok (row.embedding, cache)
      else rebuild
    | none => rebuild

/-- Models `shared_utils.build_faiss_index` together with its effect on the
caller's array: `embeddings.astype(np.float32)` allocates a fresh copy (the
default `copy=True`), `faiss.normalize_L2` then mutates only that copy, and the
normalized copy is added to the inner-product index.  The first component is
the list of row vectors stored in the returned index; the second component is
the contents of the caller's `embeddings` array after the call (unchanged,
because the mutation hit the copy — an in-place variant would return the
normalized matrix here instead). -/
def buildFaissIndex (embeddings : Mat) : Mat × Mat :=
  let copied := embeddings.map (fun v => v.map (fun x => x))
  let normalized := copied.map normalizeL2
  (normalized, embeddings)

/-- Models `index.search(q, k)` on a `faiss.IndexFlatIP` holding `index` as its
rows: the `min k (length index)` best rows by inner product with the query,
returned as `(row index, score)` pairs in descending score order, ties broken
by row index. -/
def searchIP (index : Mat) (q : Vec) (k : Nat) : List (Nat × ℚ) :=
  (sortByDesc (fun p => p.2) (index.enum.map (fun p => (p.1, dot q p.2)))).take k

/-- The query vector used by the cart-based (and, by the shared shape, the
purchase-based) generator for the seed at row `i`: the seed's row of the
caller's embedding matrix, L2-normalized before the search
(`faiss.normalize_L2(vec)` in `recommend_cart_based.py`). -/
def cartSeedQuery (P : Mat) (i : Nat) : Vec := normalizeL2 (P.getD i [])

/-- The query vector used by the profile-based generator: the user's profile
embedding, L2-normalized before the search (`faiss.normalize_L2(user_vector)`
in `recommend_profile_based.py`). -/
def profileQuery (user_vector : Vec) : Vec := normalizeL2 user_vector

/-- The inner loop of `recommend_cart_based.py` over one seed's search results:
append every hit that is neither the seed itself nor already seen, and break
out of this seed's results as soon as the freshly appended candidate brings the
count up to `top_k` (the check runs only after an append, and the outer loop
over seeds continues regardless). -/
def cartCollectInner (pids : List String) (src : String) (spid : String) (top_k : Nat) :
    List (Nat × ℚ) → List Candidate → List String → List Candidate × List String
  | [], recs, seen => (recs, seen)
  | (i, s) :: rest, recs, seen =>
    let cid := pids.getD i ""
    if cid ≠ spid ∧ cid ∉ seen then
      let recs' := recs ++ [{ product_id := cid, score := s, source_event := src }]
      let seen' := seen ++ [cid]
      if top_k ≤ recs'.length then (recs', seen')
      else cartCollectInner pids src spid top_k rest recs' seen'
    else cartCollectInner pids src spid top_k rest recs seen

/-- The outer loop of `recommend_cart_based.py` over the chosen seeds: skip
seeds missing from the id-to-index map, otherwise search the index for
`top_k * 3` neighbors of the normalized seed row and feed them to the inner
collection loop.  `Pm` is the caller's embedding matrix as observed after
`build_faiss_index` returned (the seed rows are read from it). -/
def cartCollectSeeds (index Pm : Mat) (pids : List String) (src : String) (top_k : Nat) :
    List String → List Candidate → List String → List Candidate × List String
  | [], recs, seen => (recs, seen)
  | spid :: rest, recs, seen =>
    match pidToIndex pids spid with
    | none => cartCollectSeeds index Pm pids src top_k rest recs seen
    | some i =>
      let st := cartCollectInner pids src spid top_k (searchIP index (cartSeedQuery Pm i) (top_k * 3)) recs seen
      cartCollectSeeds index Pm pids src top_k rest st.1 st.2

/-- The rows the cart-based generator draws its seeds from: the user's events
with their probabilities (computed over ALL of the user's events, wall-clock
`now`, default `decay_rate=0.1`), filtered afterwards to `add_to_cart` rows. -/
def cartRows (ex : ℚ → ℚ) (now : ℚ) (uid : String) (interactions : List Event) :
    List (Event × ℚ) :=
  (computeEventProbabilities ex now (1/10) (filterUser interactions uid)).filter
    (fun r => decide (r.1.event_type = "add_to_cart"))

/-- Models `recommend_cart_based.recommend_cart_based` (default `top_k=3`):
probability-rank the user's cart events, take the top 3 seed product ids,
and collect globally deduplicated neighbors of each normalized seed vector. -/
def recommendCartBased (ex : ℚ → ℚ) (now : ℚ) (uid : String) (interactions : List Event)
    (P : Mat) (pids : List String) (top_k : Nat) : List Candidate :=
  let cart := cartRows ex now uid interactions
  if cart = [] then []
  else
    let built := buildFaissIndex P
    let seeds := ((sortByDesc (fun r => r.2) cart).map (fun r => r.1.product_id)).take 3
    (cartCollectSeeds built.1 built.2 pids "add_to_cart" top_k seeds [] []).1

/-- Modelled from the spec: `recommend_purchase_based` (the file
`src/scripts/recommend_purchase_based.py` is imported by `recommend_master.py`
but is not present in the repository).  Spec section 4.3: "same seed-selection
shape as cart-based, scoped to `purchase` events", so this mirrors
`recommendCartBased` with the event filter and source label set to
`"purchase"`. -/
def recommendPurchaseBased (ex : ℚ → ℚ) (now : ℚ) (uid : String) (interactions : List Event)
    (P : Mat) (pids : List String) (top_k : Nat) : List Candidate :=
  let pur := (computeEventProbabilities ex now (1/10) (filterUser interactions uid)).filter
    (fun r => decide (r.1.event_type = "purchase"))
  if pur = [] then []
  else
    let built := buildFaissIndex P
    let seeds := ((sortByDesc (fun r => r.2) pur).map (fun r => r.1.product_id)).take 3
    (cartCollectSeeds built.1 built.2 pids "purchase" top_k seeds [] []).1

/-- Modelled from the spec: `recommend_view_based` (the file
`src/scripts/recommend_view_based.py` is imported by `recommend_master.py` but
is not present in the repository).  Spec sections 4.3 and 7: seed = the most
recent viewed product, embed-search for neighbors, exclude the seed itself,
return up to `top_k = 5` scored candidates, and return `[]` (not an error)
when the user has no view events or the seed id is unknown. -/
def recommendViewBased (uid : String) (interactions : List Event)
    (P : Mat) (pids : List String) (top_k : Nat) : List Candidate :=
  let views := (filterUser interactions uid).filter (fun e => decide (e.event_type = "view"))
  match sortByDesc (fun e => e.timestamp) views with
  | [] => []
  | seed :: _ =>
    match pidToIndex pids seed.product_id with
    | none => []
    | some i =>
      let built := buildFaissIndex P
      let res := searchIP built.1 (normalizeL2 (built.2.getD i [])) (top_k + 1)
      (((res.map (fun p =>
          { product_id := pids.getD p.1 "", score := p.2, source_event := "view" : Candidate }))).filter
        (fun c => decide (c.product_id ≠ seed.product_id))).take top_k

/-- The result-collection loop of `recommend_profile_based.py`: walk the search
results, append hits that are not in `seen_products`, and stop once `top_k`
results are collected (here the length check runs on every iteration, not only
after an append). -/
def profileCollect (pids : List String) (seen_products : List String) (top_k : Nat) :
    List (Nat × ℚ) → List Candidate → List Candidate
  | [], recs => recs
  | (i, s) :: rest, recs =>
    let pid := pids.getD i ""
    let recs' :=
      if pid ∈ seen_products then recs
      else recs ++ [{ product_id := pid, score := s, source_event := "profile" : Candidate }]
    if top_k ≤ recs'.length then recs'
    else profileCollect pids seen_products top_k rest recs'

/-- Models `recommend_profile_based.recommend_profile_based` (default
`top_k=10`): fetch the (cached or rebuilt) user profile embedding — raising if
the user has no interactions — then search the index with the normalized
profile vector for `top_k * 2` neighbors and collect up to `top_k` hits not in
`seen_products`.  The cache file is threaded as state. -/
def recommendProfileBased (ex : ℚ → ℚ) (uid : String) (interactions : List Event)
    (P : Mat) (pids : List String) (seen_products : List String) (top_k : Nat)
    (cache : Cache) : Except String (List Candidate × Cache) :=
  match getOrBuildUserEmbedding ex interactions pids P uid false cache with
  | .error e => .error e
  | .ok (user_vector, cache') =>
    let built := buildFaissIndex P
    let res := searchIP built.1 (profileQuery user_vector) (top_k * 2)
    .ok (profileCollect pids seen_products top_k res [], cache')

/-- The fold body `add_recs` of `recommend_master.py`: keep at most one
candidate per product id in the insertion-ordered dict `rec_dict`, replacing an
existing entry only when the new score is strictly higher. -/
def addRec (d : List Candidate) (r : Candidate) : List Candidate :=
  match d.find? (fun c => decide (c.product_id = r.product_id)) with
  | none => d ++ [r]
  | some c =>
    if c.score < r.score then
      d.map (fun x => if x.product_id = r.product_id then r else x)
    else d

/-- Folding one generator's candidate list into the dict. -/
def addRecs (d : List Candidate) (new : List Candidate) : List Candidate :=
  new.foldl addRec d

/-- The merge/rank stage of `recommend_master.recommend_for_user` (lines 36-61):
fold the four candidate lists in the fixed sequence view, cart, purchase,
profile into the dict, then sort the surviving candidates descending by score
(Python's stable sort) and truncate to the final count 5. -/
def mergeRecommendations (view cart purchase profile : List Candidate) : List Candidate :=
  (sortByDesc (fun c => c.score)
    (addRecs (addRecs (addRecs (addRecs [] view) cart) purchase) profile)).take 5

/-- Models `recommend_master.recommend_for_user` up to the merge/truncate step:
run the four generators in the fixed sequence (view and purchase are modelled
from the spec, their files being absent from the repository), pass the product
ids already collected to the profile generator as `seen_products`, and merge.
The enrichment steps (LLM explanations, catalog display names) only attach
extra fields via external collaborators and are outside the modelled core.
An uncaught exception from any generator — in particular the
`No interactions found` ValueError raised inside
`get_or_build_user_embedding` — propagates out as `Except.error`. -/
def recommendForUserRun (ex : ℚ → ℚ) (now : ℚ) (interactions : List Event)
    (pids : List String) (P : Mat) (cache : Cache) (uid : String) :
    Except String (List Candidate × Cache) :=
  let view := recommendViewBased uid interactions P pids 5
  let cart := recommendCartBased ex now uid interactions P pids 3
  let purchase := recommendPurchaseBased ex now uid interactions P pids 3
  let d3 := addRecs (addRecs (addRecs [] view) cart) purchase
  let seen_products := d3.map (fun c => c.product_id)
  match recommendProfileBased ex uid interactions P pids seen_products 10 cache with
  | .error e => .error e
  | .ok (profile, cache') => .ok (mergeRecommendations view cart purchase profile, cache')

/-- Being the surviving entry for one product id: the candidate occurs among
the folded inputs, its score is maximal among all input candidates with the
same product id, and it is the FIRST input candidate attaining that maximal
score (first writer wins on ties). -/
def bestEntry (L : List Candidate) (c : Candidate) : Prop :=
  c ∈ L ∧ (∀ x ∈ L, x.product_id = c.product_id → x.score ≤ c.score) ∧
  L.find? (fun x => decide (x.product_id = c.product_id ∧ c.score ≤ x.score)) = some c

/-- Invariant of the `rec_dict` fold: keys are unique, every stored candidate
is the best entry for its product id among the inputs processed so far, and
every processed input's product id is represented. -/
def goodDict (L d : List Candidate) : Prop :=
  (d.map (fun c => c.product_id)).Nodup ∧ (∀ c ∈ d, bestEntry L c) ∧
  (∀ x ∈ L, ∃ c ∈ d, c.product_id = x.product_id)

/-- Concrete stand-in for `np.exp` in closed evaluations: the constant
function 1.  Every demo interaction below happens exactly at the wall-clock
instant used as `now`, so the code only ever evaluates the exponential at
argument `0`, where the real exponential is also `1`: on these inputs the
instantiation agrees with `np.exp` pointwise at every argument actually used. -/
def exOne : ℚ → ℚ := fun _ => 1

/-- Ten demo products on the unit circle with exactly representable
coordinates (each row has `dot v v = 1`). -/
def demoPids : List String := ["A", "B", "C", "D", "E", "F", "G", "H", "I", "J"]

/-- The demo embedding matrix for `demoPids`. -/
def demoP : Mat :=
  [[1, 0], [0, 1], [4/5, 3/5], [3/5, 4/5], [15/17, 8/17], [8/17, 15/17],
   [12/13, 5/13], [5/13, 12/13], [24/25, 7/25], [7/25, 24/25]]

/-- A user with two cart events, on products `A` and `B`, both at time 0. -/
def demoCartEvents : List Event :=
  [⟨"U", "A", "add_to_cart", 0⟩, ⟨"U", "B", "add_to_cart", 0⟩]

/-- A user with one view event and one cart event, both at time 0. -/
def demoMixedEvents : List Event :=
  [⟨"U", "A", "view", 0⟩, ⟨"U", "B", "add_to_cart", 0⟩]

section

attribute [local semireducible] Rat.add Rat.mul Rat.inv Rat.sub

set_option maxRecDepth 10000

/-- C1 counterexample: for the user `U2`, who has zero interaction records in
the log, `recommend_for_user` does not return an empty list: it propagates the
`No interactions found` ValueError raised inside `get_or_build_user_embedding`
when the profile-based generator runs (the view, cart and purchase generators
all contribute `[]` first, without raising). -/
theorem recommendForUser_U2_raises :
    recommendForUserRun exOne 0 [⟨"U1", "A", "view", 0⟩] ["A"] [[1]] [] "U2" =
      .error "No interactions found for user U2" ∧
    (recommendForUserRun exOne 0 [⟨"U1", "A", "view", 0⟩] ["A"] [[1]] [] "U2").isOk = false :=
  ⟨rfl, by decide⟩

/-- C1 amended: for every user with zero interaction records,
`recommend_for_user` raises the `No interactions found` ValueError coming from
`get_or_build_user_embedding` (instead of returning an empty list): the three
scoped generators return `[]`, and the uncaught exception from the profile
generator aborts the pipeline. -/
theorem recommendForUser_no_interactions_error (ex : ℚ → ℚ) (now : ℚ)
    (interactions : List Event) (pids : List String) (P : Mat) (cache : Cache)
    (uid : String) (h : filterUser interactions uid = []) :
    recommendForUserRun ex now interactions pids P cache uid =
      .error ("No interactions found for user " ++ uid) := by
  simp [recommendForUserRun, recommendViewBased, recommendCartBased,
    recommendPurchaseBased, cartRows, computeEventProbabilities, sortByDesc,
    recommendProfileBased, getOrBuildUserEmbedding, h]

/-- C1 amended, witness at a concrete input. -/
theorem recommendForUser_no_interactions_error_witness :
    filterUser [⟨"U1", "A", "view", 0⟩] "U2" = [] ∧
    recommendForUserRun exOne 0 [⟨"U1", "A", "view", 0⟩] ["A"] [[1]] [] "U2" =
      .error ("No interactions found for user " ++ "U2") :=
  ⟨by decide,
   recommendForUser_no_interactions_error exOne 0 _ ["A"] [[1]] [] "U2" (by decide)⟩

/-- C3 counterexample: a view candidate and a purchase candidate for the same
product with equal scores — the merge keeps the view candidate, not the
purchase one, because `add_recs` replaces only on a strictly higher score and
the purchase generator runs after the view generator. -/
theorem merge_tie_purchase_loses :
    mergeRecommendations [⟨"P1", 2, "view"⟩] [] [⟨"P1", 2, "purchase"⟩] [] =
      [⟨"P1", 2, "view"⟩] ∧
    (mergeRecommendations [⟨"P1", 2, "view"⟩] [] [⟨"P1", 2, "purchase"⟩] []).map
        (fun c => c.source_event) = ["view"] := by
  decide

/-- C3 amended: on a score tie for the same product id, the merge keeps the
candidate written by the earlier generator in the fixed sequence; an
equal-scored purchase-based candidate does not replace the earlier view or
cart candidate. -/
theorem merge_tie_first_writer_wins (cv cp : Candidate)
    (hpid : cp.product_id = cv.product_id) (hs : cp.score ≤ cv.score) :
    mergeRecommendations [cv] [] [cp] [] = [cv] := by
  simp [mergeRecommendations, addRecs, addRec, List.find?, hpid,
    not_lt.mpr hs, sortByDesc, insertByDesc]

/-- C3 amended, witness at a concrete input. -/
theorem merge_tie_first_writer_wins_witness :
    (Candidate.mk "P1" 2 "purchase").product_id = (Candidate.mk "P1" 2 "view").product_id ∧
    (Candidate.mk "P1" 2 "purchase").score ≤ (Candidate.mk "P1" 2 "view").score ∧
    mergeRecommendations [⟨"P1", 2, "view"⟩] [] [⟨"P1", 2, "purchase"⟩] [] =
      [⟨"P1", 2, "view"⟩] :=
  ⟨by decide, by decide,
   merge_tie_first_writer_wins ⟨"P1", 2, "view"⟩ ⟨"P1", 2, "purchase"⟩ (by decide) (by decide)⟩

/-- C8 counterexample: for a user with one view event and one cart event, the
probabilities carried by the cart rows inside the cart-based generator sum to
3/4, not 1: `compute_event_probabilities` normalizes over ALL the user's
events before the `add_to_cart` filter is applied. -/
theorem cart_probabilities_sum_lt_one :
    ((cartRows exOne 0 "U" demoMixedEvents).map (fun r => r.2)).sum = 3/4 ∧
    ((cartRows exOne 0 "U" demoMixedEvents).map (fun r => r.2)).sum ≠ 1 := by
  decide

/-- C10: `build_faiss_index` does not modify the embedding matrix passed to it
(`astype` copies before `normalize_L2` mutates): the caller's matrix after the
call is the original, any sequence of such calls still sees the original, and
a later index build over the shared matrix yields the same index rows. -/
theorem buildFaissIndex_preserves_argument (P : Mat) :
    (buildFaissIndex P).2 = P ∧
    (∀ n : Nat, (fun M => (buildFaissIndex M).2)^[n] P = P) ∧
    (buildFaissIndex ((buildFaissIndex P).2)).1 = (buildFaissIndex P).1 :=
  ⟨rfl, fun n => Function.iterate_fixed rfl n, rfl⟩


/-- The default event weights are strictly positive. -/
theorem eventWeight_pos (s : String) : 0 < eventWeight s := by
  unfold eventWeight
  split_ifs <;> norm_num

/-- Dividing every element by `c` divides the sum by `c`. -/
theorem sum_map_div (l : List ℚ) (c : ℚ) :
    (l.map (fun x => x / c)).sum = l.sum / c := by
  induction l with
  | nil => simp
  | cons x xs ih => simp [ih, add_div]

/-- The sum over a filtered list of nonnegative values is at most the full sum. -/
theorem sum_map_filter_le (f : α → ℚ) (q : α → Bool) (l : List α)
    (h : ∀ x ∈ l, 0 ≤ f x) :
    ((l.filter q).map f).sum ≤ (l.map f).sum := by
  induction l with
  | nil => simp
  | cons x xs ih =>
    have hx := h x (List.mem_cons_self x xs)
    have ihx := ih (fun y hy => h y (List.mem_cons_of_mem x hy))
    by_cases hq : q x
    · simpa [List.filter_cons, hq] using add_le_add_left ihx (f x)
    · simp only [List.filter_cons, hq, if_false, List.map_cons, List.sum_cons]
      exact le_add_of_nonneg_of_le hx ihx

/-- C8 amended: the probabilities computed by `compute_event_probabilities`
sum to 1 across ALL of the user's events (for any strictly positive
exponential), and therefore the probabilities carried by the `add_to_cart`
rows — which are filtered out only afterwards inside the cart-based
generator — sum to at most 1, not necessarily 1. -/
theorem event_probabilities_sum_one (ex : ℚ → ℚ) (now dr : ℚ) (df : List Event)
    (hne : df ≠ []) (hex : ∀ x, 0 < ex x) :
    ((computeEventProbabilities ex now dr df).map (fun r => r.2)).sum = 1 ∧
    (((computeEventProbabilities ex now dr df).filter
        (fun r => decide (r.1.event_type = "add_to_cart"))).map (fun r => r.2)).sum ≤ 1 := by
  have hw : ∀ e : Event,
      0 < eventWeight e.event_type * ex (-(dr * ((now - e.timestamp) / 86400))) :=
    fun e => mul_pos (eventWeight_pos _) (hex _)
  have hT : 0 < (df.map (fun e =>
      eventWeight e.event_type * ex (-(dr * ((now - e.timestamp) / 86400))))).sum := by
    apply List.sum_pos
    · intro a ha
      obtain ⟨e, _, rfl⟩ := List.mem_map.mp ha
      exact hw e
    · simpa using hne
  have hmap : (computeEventProbabilities ex now dr df).map (fun r => r.2) =
      (df.map (fun e =>
        eventWeight e.event_type * ex (-(dr * ((now - e.timestamp) / 86400))))).map
        (fun x => x / (df.map (fun e =>
          eventWeight e.event_type * ex (-(dr * ((now - e.timestamp) / 86400))))).sum) := by
    simp [computeEventProbabilities, List.map_map, Function.comp_def]
  have hsum : ((computeEventProbabilities ex now dr df).map (fun r => r.2)).sum = 1 := by
    rw [hmap, sum_map_div, div_self (ne_of_gt hT)]
  refine ⟨hsum, ?_⟩
  have hnn : ∀ r ∈ computeEventProbabilities ex now dr df, 0 ≤ r.2 := by
    intro r hr
    simp only [computeEventProbabilities, List.map_map, List.mem_map] at hr
    obtain ⟨e, _, rfl⟩ := hr
    exact div_nonneg (le_of_lt (hw e)) (by positivity)
  calc (((computeEventProbabilities ex now dr df).filter
        (fun r => decide (r.1.event_type = "add_to_cart"))).map (fun r => r.2)).sum
      ≤ ((computeEventProbabilities ex now dr df).map (fun r => r.2)).sum :=
        sum_map_filter_le _ _ _ hnn
    _ = 1 := hsum

/-- C8 amended, witness at a concrete input. -/
theorem event_probabilities_sum_one_witness :
    demoMixedEvents ≠ [] ∧ (∀ x, 0 < exOne x) ∧
    ((computeEventProbabilities exOne 0 (1/10) demoMixedEvents).map (fun r => r.2)).sum = 1 :=
  ⟨by decide, fun x => by norm_num [exOne],
   (event_probabilities_sum_one exOne 0 (1/10) demoMixedEvents (by decide)
      (fun x => by norm_num [exOne])).1⟩

/-- Scaling every coordinate by `1 / c` scales the self inner product by
`1 / (c * c)`. -/
theorem dot_map_div (v : Vec) (c : ℚ) :
    dot (v.map (fun x => x / c)) (v.map (fun x => x / c)) = dot v v / (c * c) := by
  induction v with
  | nil => simp [dot]
  | cons x xs ih =>
    simp only [dot, List.map_cons, List.zipWith_cons_cons, List.sum_cons] at ih ⊢
    rw [ih, div_mul_div_comm, div_add_div_same]

/-- A vector whose squared norm is a nonzero perfect square in `ℚ` becomes a
unit vector under `normalizeL2`. -/
theorem dot_normalizeL2_self (v : Vec)
    (hsq : ratSqrt (dot v v) * ratSqrt (dot v v) = dot v v) (hne : dot v v ≠ 0) :
    dot (normalizeL2 v) (normalizeL2 v) = 1 := by
  unfold normalizeL2
  rw [dot_map_div, hsq, div_self hne]

/-- C9: every similarity search in the pipeline runs an L2-normalized query
against an index of L2-normalized rows: `build_faiss_index` stores the
normalized rows of the embedding matrix (all unit under `dot`), the cart-based
generator's seed query (read from the caller's matrix as left by
`build_faiss_index`) is normalized before searching, and so is the
profile-based generator's user-vector query. -/
theorem searches_use_normalized_vectors (P : Mat) (uv : Vec) (i : Nat)
    (hP : ∀ v ∈ P, ratSqrt (dot v v) * ratSqrt (dot v v) = dot v v ∧ dot v v ≠ 0)
    (huv : ratSqrt (dot uv uv) * ratSqrt (dot uv uv) = dot uv uv ∧ dot uv uv ≠ 0)
    (hi : i < P.length) :
    (buildFaissIndex P).1 = P.map normalizeL2 ∧
    (∀ w ∈ (buildFaissIndex P).1, dot w w = 1) ∧
    dot (cartSeedQuery (buildFaissIndex P).2 i) (cartSeedQuery (buildFaissIndex P).2 i) = 1 ∧
    dot (profileQuery uv) (profileQuery uv) = 1 := by
  have hrows : (buildFaissIndex P).1 = P.map normalizeL2 := by
    simp [buildFaissIndex]
  refine ⟨hrows, ?_, ?_, ?_⟩
  · intro w hw
    rw [hrows] at hw
    obtain ⟨v, hv, rfl⟩ := List.mem_map.mp hw
    exact dot_normalizeL2_self v (hP v hv).1 (hP v hv).2
  · have hmem : (buildFaissIndex P).2.getD i [] ∈ P := by
      show P.getD i [] ∈ P
      rw [List.getD_eq_getElem P [] hi]
      exact List.getElem_mem hi
    exact dot_normalizeL2_self _ (hP _ hmem).1 (hP _ hmem).2
  · exact dot_normalizeL2_self uv huv.1 huv.2

/-- C9, witness at a concrete input. -/
theorem searches_use_normalized_vectors_witness :
    (∀ w ∈ (buildFaissIndex [[1, 0], [0, 1]]).1, dot w w = 1) ∧
    dot (profileQuery [3/5, 4/5]) (profileQuery [3/5, 4/5]) = 1 :=
  ⟨(searches_use_normalized_vectors [[1, 0], [0, 1]] [3/5, 4/5] 0
      (by decide) (by decide) (by decide)).2.1,
   (searches_use_normalized_vectors [[1, 0], [0, 1]] [3/5, 4/5] 0
      (by decide) (by decide) (by decide)).2.2.2⟩


/-- C5: with time decay enabled, `compute_user_embedding` returns exactly the
weighted average Σ(weight·vector)/Σ(weight) over the user's events, where each
event's weight is its base event-type weight times `exp(-0.05·Δt)` and `Δt`
runs from the event's timestamp to the user's own most recent event timestamp
(not wall-clock now). -/
theorem compute_user_embedding_is_weighted_average (ex : ℚ → ℚ) (uid : String)
    (interactions : List Event) (P : Mat) (idx : String → Option Nat) (vs : List Vec)
    (hne : filterUser interactions uid ≠ [])
    (hvs : lookupVectors idx P ((filterUser interactions uid).map (fun e => e.product_id)) =
      .ok vs) :
    computeUserEmbedding ex uid interactions P idx true =
      .ok (vdiv
        (vsum (List.zipWith (fun e v =>
            smul (eventWeight e.event_type *
              ex (-(1/20 * (maxTimestamp (filterUser interactions uid) - e.timestamp)))) v)
          (filterUser interactions uid) vs))
        (((filterUser interactions uid).map (fun e =>
            eventWeight e.event_type *
              ex (-(1/20 * (maxTimestamp (filterUser interactions uid) - e.timestamp))))).sum)) := by
  unfold computeUserEmbedding
  simp only [if_neg hne, hvs, if_true]
  rw [List.zipWith_map_left, List.zipWith_same, List.zipWith_map_right,
    List.zipWith_comm]

/-- C5, witness at a concrete input. -/
theorem compute_user_embedding_is_weighted_average_witness :
    filterUser [⟨"U", "A", "view", 0⟩] "U" ≠ [] ∧
    lookupVectors (pidToIndex ["A"]) [[1]]
      ((filterUser [⟨"U", "A", "view", 0⟩] "U").map (fun e => e.product_id)) = .ok [[1]] ∧
    computeUserEmbedding exOne "U" [⟨"U", "A", "view", 0⟩] [[1]] (pidToIndex ["A"]) true =
      .ok (vdiv
        (vsum (List.zipWith (fun e v =>
            smul (eventWeight e.event_type *
              exOne (-(1/20 * (maxTimestamp (filterUser [⟨"U", "A", "view", 0⟩] "U") - e.timestamp)))) v)
          (filterUser [⟨"U", "A", "view", 0⟩] "U") [[1]]))
        (((filterUser [⟨"U", "A", "view", 0⟩] "U").map (fun e =>
            eventWeight e.event_type *
              exOne (-(1/20 * (maxTimestamp (filterUser [⟨"U", "A", "view", 0⟩] "U") - e.timestamp))))).sum)) :=
  ⟨by decide, rfl,
   compute_user_embedding_is_weighted_average exOne "U" [⟨"U", "A", "view", 0⟩] [[1]]
     (pidToIndex ["A"]) [[1]] (by decide) rfl⟩


/-- Through the inner collection loop, the `seen` set stays exactly the list of
collected product ids, and it stays duplicate-free. -/
theorem cartCollectInner_seen (pids : List String) (src spid : String) (tk : Nat) :
    ∀ (res : List (Nat × ℚ)) (recs : List Candidate) (seen : List String),
    seen = recs.map (fun c => c.product_id) → seen.Nodup →
    (cartCollectInner pids src spid tk res recs seen).2 =
      (cartCollectInner pids src spid tk res recs seen).1.map (fun c => c.product_id) ∧
    (cartCollectInner pids src spid tk res recs seen).2.Nodup := by
  intro res
  induction res with
  | nil => intro recs seen h hn; simpa [cartCollectInner] using ⟨h, hn⟩
  | cons p rest ih =>
    intro recs seen h hn
    obtain ⟨i, s⟩ := p
    simp only [cartCollectInner]
    by_cases hc : pids.getD i "" ≠ spid ∧ pids.getD i "" ∉ seen
    · rw [if_pos hc]
      have hseen' : seen ++ [pids.getD i ""] =
          (recs ++ [{ product_id := pids.getD i "", score := s, source_event := src : Candidate }]).map
            (fun c => c.product_id) := by
        simp [h]
      have hnod' : (seen ++ [pids.getD i ""]).Nodup := by
        simp only [List.nodup_append, List.nodup_cons, List.not_mem_nil, not_false_iff,
          List.nodup_nil, and_true, List.disjoint_singleton]
        exact ⟨hn, by simpa using hc.2⟩
      by_cases hl : tk ≤ recs.length + 1
      · rw [if_pos (by simpa using hl)]
        exact ⟨by simpa using hseen', hnod'⟩
      · rw [if_neg (by simpa using hl)]
        exact ih _ _ hseen' hnod'
    · rw [if_neg hc]
      exact ih _ _ h hn

/-- Length bound for one seed's inner loop: the loop stops with at most
`max tk (n + 1)` collected results when it starts with `n`, and never exceeds
`tk` when it starts strictly below `tk`. -/
theorem cartCollectInner_length (pids : List String) (src spid : String) (tk : Nat) :
    ∀ (res : List (Nat × ℚ)) (recs : List Candidate) (seen : List String),
    (cartCollectInner pids src spid tk res recs seen).1.length ≤ max tk (recs.length + 1) ∧
    (recs.length < tk → (cartCollectInner pids src spid tk res recs seen).1.length ≤ tk) := by
  intro res
  induction res with
  | nil =>
    intro recs seen
    constructor
    · simp [cartCollectInner]
    · intro hlt; simp [cartCollectInner]; omega
  | cons p rest ih =>
    intro recs seen
    obtain ⟨i, s⟩ := p
    simp only [cartCollectInner]
    by_cases hc : pids.getD i "" ≠ spid ∧ pids.getD i "" ∉ seen
    · rw [if_pos hc]
      by_cases hl : tk ≤ recs.length + 1
      · rw [if_pos (by simpa using hl)]
        constructor
        · simp
        · intro hlt; simp; omega
      · rw [if_neg (by simpa using hl)]
        have := ih (recs ++ [{ product_id := pids.getD i "", score := s, source_event := src : Candidate }])
          (seen ++ [pids.getD i ""])
        constructor
        · refine le_trans this.1 ?_
          simp; omega
        · intro _
          refine le_trans (this.2 (by simp; omega)) ?_
          omega
    · rw [if_neg hc]
      exact ih recs seen

/-- The `seen`/ids invariant is preserved across the whole seed loop. -/
theorem cartCollectSeeds_nodup (index Pm : Mat) (pids : List String) (src : String) (tk : Nat) :
    ∀ (seeds : List String) (recs : List Candidate) (seen : List String),
    seen = recs.map (fun c => c.product_id) → seen.Nodup →
    (cartCollectSeeds index Pm pids src tk seeds recs seen).2 =
      (cartCollectSeeds index Pm pids src tk seeds recs seen).1.map (fun c => c.product_id) ∧
    (cartCollectSeeds index Pm pids src tk seeds recs seen).2.Nodup := by
  intro seeds
  induction seeds with
  | nil => intro recs seen h hn; simpa [cartCollectSeeds] using ⟨h, hn⟩
  | cons spid rest ih =>
    intro recs seen h hn
    simp only [cartCollectSeeds]
    cases hidx : pidToIndex pids spid with
    | none => exact ih recs seen h hn
    | some i =>
      have hinner := cartCollectInner_seen pids src spid tk
        (searchIP index (cartSeedQuery Pm i) (tk * 3)) recs seen h hn
      exact ih _ _ hinner.1 hinner.2

/-- Additive length bound for the seed loop: each seed can add at most one
result beyond `max tk` of the running count. -/
theorem cartCollectSeeds_length_add (index Pm : Mat) (pids : List String) (src : String) (tk : Nat) :
    ∀ (seeds : List String) (recs : List Candidate) (seen : List String),
    (cartCollectSeeds index Pm pids src tk seeds recs seen).1.length ≤
      max tk recs.length + seeds.length := by
  intro seeds
  induction seeds with
  | nil => intro recs seen; simp [cartCollectSeeds]
  | cons spid rest ih =>
    intro recs seen
    simp only [cartCollectSeeds]
    cases hidx : pidToIndex pids spid with
    | none =>
      refine le_trans (ih recs seen) ?_
      simp
    | some i =>
      have hinner := (cartCollectInner_length pids src spid tk
        (searchIP index (cartSeedQuery Pm i) (tk * 3)) recs seen).1
      refine le_trans (ih _ _) ?_
      have : (cartCollectInner pids src spid tk
          (searchIP index (cartSeedQuery Pm i) (tk * 3)) recs seen).1.length ≤
          max tk recs.length + 1 := by omega
      simp only [List.length_cons]
      omega

/-- Refined length bound: starting strictly below `tk`, the seed loop ends with
at most `tk + (number of seeds) - 1` results — the first productive seed is
capped at `tk`, and each later seed can overshoot by one. -/
theorem cartCollectSeeds_length_lt (index Pm : Mat) (pids : List String) (src : String) (tk : Nat) :
    ∀ (seeds : List String) (recs : List Candidate) (seen : List String),
    recs.length < tk →
    (cartCollectSeeds index Pm pids src tk seeds recs seen).1.length ≤
      tk + seeds.length - 1 := by
  intro seeds
  induction seeds with
  | nil => intro recs seen hlt; simp [cartCollectSeeds]; omega
  | cons spid rest ih =>
    intro recs seen hlt
    simp only [cartCollectSeeds]
    cases hidx : pidToIndex pids spid with
    | none =>
      refine le_trans (ih recs seen hlt) ?_
      simp only [List.length_cons]
      omega
    | some i =>
      have hinner := (cartCollectInner_length pids src spid tk
        (searchIP index (cartSeedQuery Pm i) (tk * 3)) recs seen).2 hlt
      by_cases hlt' : (cartCollectInner pids src spid tk
          (searchIP index (cartSeedQuery Pm i) (tk * 3)) recs seen).1.length < tk
      · refine le_trans (ih _ _ hlt') ?_
        simp only [List.length_cons]
        omega
      · have hadd := cartCollectSeeds_length_add index Pm pids src tk rest
          (cartCollectInner pids src spid tk
            (searchIP index (cartSeedQuery Pm i) (tk * 3)) recs seen).1
          (cartCollectInner pids src spid tk
            (searchIP index (cartSeedQuery Pm i) (tk * 3)) recs seen).2
        refine le_trans hadd ?_
        simp only [List.length_cons]
        omega


/-- C4 counterexample: with `top_k = 3`, ten products and two cart seeds, the
cart-based generator returns 4 candidates — the per-seed inner loop checks the
`top_k` bound only right after appending, so a later seed can still append one
candidate once the list is already full. -/
theorem cart_based_returns_four_not_three :
    (recommendCartBased exOne 0 "U" demoCartEvents demoP demoPids 3).length = 4 ∧
    ¬ (recommendCartBased exOne 0 "U" demoCartEvents demoP demoPids 3).length ≤ 3 := by
  decide

/-- C4 amended: the cart-based generator returns at most `top_k + 2` candidates
(at most one overshoot for each of the up-to-2 seeds processed after the list
first fills), and all returned product ids are pairwise distinct. -/
theorem cart_based_bounded_and_distinct (ex : ℚ → ℚ) (now : ℚ) (uid : String)
    (interactions : List Event) (P : Mat) (pids : List String) (top_k : Nat)
    (h : 1 ≤ top_k) :
    (recommendCartBased ex now uid interactions P pids top_k).length ≤ top_k + 2 ∧
    ((recommendCartBased ex now uid interactions P pids top_k).map
      (fun c => c.product_id)).Nodup := by
  simp only [recommendCartBased]
  by_cases hc : cartRows ex now uid interactions = []
  · rw [if_pos hc]
    simp
  · rw [if_neg hc]
    constructor
    · have hlen := cartCollectSeeds_length_lt (buildFaissIndex P).1 (buildFaissIndex P).2
        pids "add_to_cart" top_k
        (((sortByDesc (fun r => r.2) (cartRows ex now uid interactions)).map
          (fun r => r.1.product_id)).take 3) [] [] (by simpa using h)
      have htake : (((sortByDesc (fun r => r.2) (cartRows ex now uid interactions)).map
          (fun r => r.1.product_id)).take 3).length ≤ 3 := by
        simp
      omega
    · have hnod := cartCollectSeeds_nodup (buildFaissIndex P).1 (buildFaissIndex P).2
        pids "add_to_cart" top_k
        (((sortByDesc (fun r => r.2) (cartRows ex now uid interactions)).map
          (fun r => r.1.product_id)).take 3) [] [] (by simp) (by simp)
      rw [← hnod.1]
      exact hnod.2

/-- C4 amended, witness at a concrete input. -/
theorem cart_based_bounded_and_distinct_witness :
    1 ≤ 3 ∧
    (recommendCartBased exOne 0 "U" demoCartEvents demoP demoPids 3).length ≤ 3 + 2 ∧
    ((recommendCartBased exOne 0 "U" demoCartEvents demoP demoPids 3).map
      (fun c => c.product_id)).Nodup :=
  ⟨by decide,
   (cart_based_bounded_and_distinct exOne 0 "U" demoCartEvents demoP demoPids 3 (by decide)).1,
   (cart_based_bounded_and_distinct exOne 0 "U" demoCartEvents demoP demoPids 3 (by decide)).2⟩


/-- The code's three-branch cache update (empty file, replace in place, append)
coincides with the spec's upsert-keyed-by-user_id. -/
theorem code_update_eq_upsertSpec (cache : Cache) (uid : String) (v : Vec) (ts : ℚ) :
    (if cache = [] then [{ user_id := uid, embedding := v, last_event_ts := ts : CacheRow }]
     else if cache.any (fun row => decide (row.user_id = uid)) then
       cache.map (fun row =>
         if row.user_id = uid then { row with embedding := v, last_event_ts := ts } else row)
     else cache ++ [{ user_id := uid, embedding := v, last_event_ts := ts }]) =
    upsertSpec cache uid v ts := by
  cases cache with
  | nil => simp [upsertSpec]
  | cons r rest => simp [upsertSpec]

/-- After an upsert for `uid`, looking up `uid` finds exactly the upserted
vector and timestamp. -/
theorem upsertSpec_find (cache : Cache) (uid : String) (v : Vec) (ts : ℚ) :
    (upsertSpec cache uid v ts).find? (fun r => decide (r.user_id = uid)) =
      some { user_id := uid, embedding := v, last_event_ts := ts } := by
  unfold upsertSpec
  by_cases hany : cache.any (fun row => decide (row.user_id = uid)) = true
  · rw [if_pos hany]
    induction cache with
    | nil => simp at hany
    | cons r rest ih =>
      by_cases hr : r.user_id = uid
      · simp [List.find?_cons, hr]
      · have hrest : rest.any (fun row => decide (row.user_id = uid)) = true := by
          simpa [List.any_cons, hr] using hany
        simpa [List.find?_cons, hr] using ih hrest
  · rw [if_neg hany]
    have hnone : cache.find? (fun r => decide (r.user_id = uid)) = none := by
      rw [List.find?_eq_none]
      intro x hx hpx
      exact hany (List.any_eq_true.mpr ⟨x, hx, hpx⟩)
    simp [List.find?_append, hnone, List.find?_cons]

/-- Cache-hit evaluation of `get_or_build_user_embedding`: a fresh entry is
returned as-is and the cache is left unchanged. -/
theorem getOrBuild_hit (ex : ℚ → ℚ) (interactions : List Event) (pids : List String)
    (P : Mat) (uid : String) (cache : Cache) (row : CacheRow)
    (hne : filterUser interactions uid ≠ [])
    (hrow : cache.find? (fun r => decide (r.user_id = uid)) = some row)
    (hts : maxTimestamp (filterUser interactions uid) ≤ row.last_event_ts) :
    getOrBuildUserEmbedding ex interactions pids P uid false cache =
      .ok (row.embedding, cache) := by
  simp only [getOrBuildUserEmbedding, if_neg hne, hrow]
  rw [if_pos ⟨trivial, hts⟩]

/-- Cache-miss evaluation when a stale entry is present: recompute and upsert. -/
theorem getOrBuild_miss_stale (ex : ℚ → ℚ) (interactions : List Event) (pids : List String)
    (P : Mat) (uid : String) (cache : Cache) (row : CacheRow) (v : Vec)
    (hne : filterUser interactions uid ≠ [])
    (hrow : cache.find? (fun r => decide (r.user_id = uid)) = some row)
    (hlt : row.last_event_ts < maxTimestamp (filterUser interactions uid))
    (hcomp : computeUserEmbedding ex uid interactions P (pidToIndex pids) true = .ok v) :
    getOrBuildUserEmbedding ex interactions pids P uid false cache =
      .ok (v, upsertSpec cache uid v (maxTimestamp (filterUser interactions uid))) := by
  simp only [getOrBuildUserEmbedding, if_neg hne, hrow, hcomp]
  rw [if_neg (fun hcond => absurd hcond.2 (not_le.mpr hlt)), code_update_eq_upsertSpec]

/-- Cache-miss evaluation when no entry is present: recompute and upsert. -/
theorem getOrBuild_miss_absent (ex : ℚ → ℚ) (interactions : List Event) (pids : List String)
    (P : Mat) (uid : String) (cache : Cache) (v : Vec)
    (hne : filterUser interactions uid ≠ [])
    (hrow : cache.find? (fun r => decide (r.user_id = uid)) = none)
    (hcomp : computeUserEmbedding ex uid interactions P (pidToIndex pids) true = .ok v) :
    getOrBuildUserEmbedding ex interactions pids P uid false cache =
      .ok (v, upsertSpec cache uid v (maxTimestamp (filterUser interactions uid))) := by
  simp only [getOrBuildUserEmbedding, if_neg hne, hrow, hcomp]
  rw [code_update_eq_upsertSpec]

/-- C6: the user-profile cache obeys its validity protocol.  With a non-empty
interaction history and `force=False`: if a cache entry for the user exists
with `last_event_ts` at least the user's current maximum interaction
timestamp, the cached vector is returned and the cache is written back
unchanged; otherwise (no entry, or a stale one) the embedding is recomputed
and upserted keyed by `user_id` — replaced in place if present, appended if
absent — with the stored `last_event_ts` equal to the user's new maximum event
timestamp. -/
theorem cache_validity_protocol (ex : ℚ → ℚ) (interactions : List Event)
    (pids : List String) (P : Mat) (uid : String) (cache : Cache)
    (hne : filterUser interactions uid ≠ []) :
    (∀ row, cache.find? (fun r => decide (r.user_id = uid)) = some row →
      maxTimestamp (filterUser interactions uid) ≤ row.last_event_ts →
      getOrBuildUserEmbedding ex interactions pids P uid false cache =
        .ok (row.embedding, cache)) ∧
    (∀ v, (∀ row, cache.find? (fun r => decide (r.user_id = uid)) = some row →
        row.last_event_ts < maxTimestamp (filterUser interactions uid)) →
      computeUserEmbedding ex uid interactions P (pidToIndex pids) true = .ok v →
      getOrBuildUserEmbedding ex interactions pids P uid false cache =
        .ok (v, upsertSpec cache uid v (maxTimestamp (filterUser interactions uid)))) := by
  constructor
  · intro row hrow hts
    exact getOrBuild_hit ex interactions pids P uid cache row hne hrow hts
  · intro v hstale hcomp
    cases hfind : cache.find? (fun r => decide (r.user_id = uid)) with
    | none => exact getOrBuild_miss_absent ex interactions pids P uid cache v hne hfind hcomp
    | some row =>
      exact getOrBuild_miss_stale ex interactions pids P uid cache row v hne hfind
        (hstale row hfind) hcomp

/-- C6, witness at a concrete input (a cache hit). -/
theorem cache_validity_protocol_witness :
    filterUser [⟨"U", "A", "view", 3⟩] "U" ≠ [] ∧
    ([⟨"U", [7], 5⟩] : Cache).find? (fun r => decide (r.user_id = "U")) = some ⟨"U", [7], 5⟩ ∧
    maxTimestamp (filterUser [⟨"U", "A", "view", 3⟩] "U") ≤ (5 : ℚ) ∧
    getOrBuildUserEmbedding exOne [⟨"U", "A", "view", 3⟩] ["A"] [[1]] "U" false
      [⟨"U", [7], 5⟩] = .ok ([7], [⟨"U", [7], 5⟩]) :=
  ⟨by decide, by decide, by decide,
   (cache_validity_protocol exOne [⟨"U", "A", "view", 3⟩] ["A"] [[1]] "U"
      [⟨"U", [7], 5⟩] (by decide)).1 ⟨"U", [7], 5⟩ (by decide) (by decide)⟩

/-- C7: two consecutive calls to `get_or_build_user_embedding` with the same
interaction log (no new event recorded in between) return the same vector: the
second call is a cache hit on the state left by the first call and returns
exactly the vector the first call returned, leaving the cache unchanged. -/
theorem cache_idempotent (ex : ℚ → ℚ) (interactions : List Event)
    (pids : List String) (P : Mat) (uid : String) (cache : Cache) (v : Vec) (c' : Cache)
    (h : getOrBuildUserEmbedding ex interactions pids P uid false cache = .ok (v, c')) :
    getOrBuildUserEmbedding ex interactions pids P uid false c' = .ok (v, c') := by
  by_cases hne : filterUser interactions uid = []
  · simp [getOrBuildUserEmbedding, hne] at h
  · cases hfind : cache.find? (fun r => decide (r.user_id = uid)) with
    | some row =>
      by_cases hts : maxTimestamp (filterUser interactions uid) ≤ row.last_event_ts
      · have h1 := getOrBuild_hit ex interactions pids P uid cache row hne hfind hts
        have h2 := h1.symm.trans h
        simp only [Except.ok.injEq, Prod.mk.injEq] at h2
        obtain ⟨hv, hc⟩ := h2
        subst hv
        subst hc
        exact getOrBuild_hit ex interactions pids P uid cache row hne hfind hts
      · cases hcomp : computeUserEmbedding ex uid interactions P (pidToIndex pids) true with
        | error e =>
          simp only [getOrBuildUserEmbedding, if_neg hne, hfind, hcomp] at h
          rw [if_neg (fun hcond => absurd hcond.2 hts)] at h
          simp at h
        | ok uvec =>
          have h1 := getOrBuild_miss_stale ex interactions pids P uid cache row uvec hne
            hfind (not_le.mp hts) hcomp
          have h2 := h1.symm.trans h
          simp only [Except.ok.injEq, Prod.mk.injEq] at h2
          obtain ⟨hv, hc⟩ := h2
          subst hv
          have hfind' : c'.find? (fun r => decide (r.user_id = uid)) =
              some ⟨uid, uvec, maxTimestamp (filterUser interactions uid)⟩ := by
            rw [← hc]
            exact upsertSpec_find cache uid uvec (maxTimestamp (filterUser interactions uid))
          exact getOrBuild_hit ex interactions pids P uid c'
            ⟨uid, uvec, maxTimestamp (filterUser interactions uid)⟩ hne hfind' (le_refl _)
    | none =>
      cases hcomp : computeUserEmbedding ex uid interactions P (pidToIndex pids) true with
      | error e =>
        simp only [getOrBuildUserEmbedding, if_neg hne, hfind, hcomp] at h
        simp at h
      | ok uvec =>
        have h1 := getOrBuild_miss_absent ex interactions pids P uid cache uvec hne
          hfind hcomp
        have h2 := h1.symm.trans h
        simp only [Except.ok.injEq, Prod.mk.injEq] at h2
        obtain ⟨hv, hc⟩ := h2
        subst hv
        have hfind' : c'.find? (fun r => decide (r.user_id = uid)) =
            some ⟨uid, uvec, maxTimestamp (filterUser interactions uid)⟩ := by
          rw [← hc]
          exact upsertSpec_find cache uid uvec (maxTimestamp (filterUser interactions uid))
        exact getOrBuild_hit ex interactions pids P uid c'
          ⟨uid, uvec, maxTimestamp (filterUser interactions uid)⟩ hne hfind' (le_refl _)

/-- C7, witness at a concrete input (first call is a miss that fills the
cache, second call hits). -/
theorem cache_idempotent_witness :
    getOrBuildUserEmbedding exOne [⟨"U", "A", "view", 3⟩] ["A"] [[1]] "U" false [] =
      .ok ([1], [⟨"U", [1], 3⟩]) ∧
    getOrBuildUserEmbedding exOne [⟨"U", "A", "view", 3⟩] ["A"] [[1]] "U" false
      [⟨"U", [1], 3⟩] = .ok ([1], [⟨"U", [1], 3⟩]) :=
  ⟨rfl,
   cache_idempotent exOne [⟨"U", "A", "view", 3⟩] ["A"] [[1]] "U" [] [1] [⟨"U", [1], 3⟩] rfl⟩


/-- Inserting into a sorted-descending list permutes a cons. -/
theorem insertByDesc_perm (f : α → ℚ) (c : α) (l : List α) :
    List.Perm (insertByDesc f c l) (c :: l) := by
  induction l with
  | nil => exact List.Perm.refl _
  | cons x xs ih =>
    by_cases h : f c < f x
    · rw [insertByDesc, if_pos h]
      exact (ih.cons x).trans (List.Perm.swap c x xs)
    · rw [insertByDesc, if_neg h]

/-- The stable descending sort permutes its input. -/
theorem sortByDesc_perm (f : α → ℚ) (l : List α) : List.Perm (sortByDesc f l) l := by
  induction l with
  | nil => exact List.Perm.refl _
  | cons x xs ih =>
    exact (insertByDesc_perm f x (sortByDesc f xs)).trans (ih.cons x)

/-- Insertion preserves the sorted-descending property. -/
theorem insertByDesc_pairwise (f : α → ℚ) (c : α) (l : List α)
    (h : l.Pairwise (fun a b => f b ≤ f a)) :
    (insertByDesc f c l).Pairwise (fun a b => f b ≤ f a) := by
  induction l with
  | nil => simp [insertByDesc]
  | cons x xs ih =>
    obtain ⟨hx, hxs⟩ := List.pairwise_cons.mp h
    by_cases hcx : f c < f x
    · rw [insertByDesc, if_pos hcx]
      refine List.pairwise_cons.mpr ⟨?_, ih hxs⟩
      intro y hy
      have hy' := (insertByDesc_perm f c xs).mem_iff.mp hy
      rcases List.mem_cons.mp hy' with hy' | hy'
      · exact hy' ▸ le_of_lt hcx
      · exact hx y hy'
    · rw [insertByDesc, if_neg hcx]
      refine List.pairwise_cons.mpr ⟨?_, h⟩
      intro y hy
      rcases List.mem_cons.mp hy with hy | hy
      · exact hy ▸ not_lt.mp hcx
      · exact le_trans (hx y hy) (not_lt.mp hcx)

/-- The stable descending sort sorts descending by key. -/
theorem sortByDesc_pairwise (f : α → ℚ) (l : List α) :
    (sortByDesc f l).Pairwise (fun a b => f b ≤ f a) := by
  induction l with
  | nil => simp [sortByDesc]
  | cons x xs ih => exact insertByDesc_pairwise f x (sortByDesc f xs) ih


/-- The empty dict satisfies the fold invariant. -/
theorem goodDict_nil : goodDict [] [] := by
  simp [goodDict]

/-- One `add_recs` step preserves the fold invariant: unique keys, per-key
maximality, first-writer-wins on ties, and coverage of all processed inputs. -/
theorem addRec_invariant (L d : List Candidate) (r : Candidate) (h : goodDict L d) :
    goodDict (L ++ [r]) (addRec d r) := by
  obtain ⟨h1, h2, h3⟩ := h
  cases hfind : d.find? (fun c => decide (c.product_id = r.product_id)) with
  | none =>
    have hno : ∀ c ∈ d, c.product_id ≠ r.product_id := by
      intro c hc
      have := List.find?_eq_none.mp hfind c hc
      simpa using this
    have hnoL : ∀ x ∈ L, x.product_id ≠ r.product_id := by
      intro x hx hpid
      obtain ⟨c, hc, hcp⟩ := h3 x hx
      exact hno c hc (hcp.trans hpid)
    simp only [addRec, hfind]
    refine ⟨?_, ?_, ?_⟩
    · simp only [List.map_append, List.map_cons, List.map_nil]
      rw [List.nodup_append]
      refine ⟨h1, List.nodup_singleton _, ?_⟩
      intro a ha hb
      simp only [List.mem_singleton] at hb
      obtain ⟨c, hc, rfl⟩ := List.mem_map.mp ha
      exact hno c hc hb
    · intro c hc
      rcases List.mem_append.mp hc with hcd | hcr
      · obtain ⟨hcL, hcmax, hcfind⟩ := h2 c hcd
        refine ⟨List.mem_append_left _ hcL, ?_, ?_⟩
        · intro x hx hpid
          rcases List.mem_append.mp hx with hxL | hxr
          · exact hcmax x hxL hpid
          · rw [List.mem_singleton] at hxr
            replace hxr := hxr.symm
            subst hxr
            exact absurd hpid.symm (hno c hcd)
        · rw [List.find?_append, hcfind, Option.or_some]
      · rw [List.mem_singleton] at hcr
        replace hcr := hcr.symm
        subst hcr
        refine ⟨List.mem_append_right _ (List.mem_singleton_self _), ?_, ?_⟩
        · intro x hx hpid
          rcases List.mem_append.mp hx with hxL | hxr
          · exact absurd hpid (hnoL x hxL)
          · rw [List.mem_singleton] at hxr
            replace hxr := hxr.symm
            subst hxr
            exact le_refl _
        · rw [List.find?_append]
          have hLnone : L.find?
              (fun x => decide (x.product_id = r.product_id ∧ r.score ≤ x.score)) = none := by
            rw [List.find?_eq_none]
            intro x hx
            simp only [decide_eq_true_eq, not_and]
            intro hpid
            exact absurd hpid (hnoL x hx)
          rw [hLnone, Option.none_or]
          simp
    · intro x hx
      rcases List.mem_append.mp hx with hxL | hxr
      · obtain ⟨c, hc, hcp⟩ := h3 x hxL
        exact ⟨c, List.mem_append_left _ hc, hcp⟩
      · rw [List.mem_singleton] at hxr
        replace hxr := hxr.symm
        subst hxr
        exact ⟨r, List.mem_append_right _ (List.mem_singleton_self _), rfl⟩
  | some c0 =>
    have hc0d : c0 ∈ d := List.mem_of_find?_eq_some hfind
    have hc0p : c0.product_id = r.product_id := by
      have := List.find?_some hfind
      simpa using this
    have huniq : ∀ x ∈ d, x.product_id = r.product_id → x = c0 :=
      fun x hx hxp => List.inj_on_of_nodup_map h1 hx hc0d (by rw [hxp, hc0p])
    have hmax0 := (h2 c0 hc0d).2.1
    by_cases hlt : c0.score < r.score
    · simp only [addRec, hfind, if_pos hlt]
      have hpidf : ∀ x : Candidate,
          (if x.product_id = r.product_id then r else x).product_id = x.product_id := by
        intro x
        by_cases hx : x.product_id = r.product_id
        · simp [hx]
        · simp [hx]
      have hLbound : ∀ y ∈ L, y.product_id = r.product_id → y.score ≤ c0.score := by
        intro y hy hyp
        exact hmax0 y hy (by rw [hyp, hc0p])
      refine ⟨?_, ?_, ?_⟩
      · have hmaps : (d.map (fun x => if x.product_id = r.product_id then r else x)).map
            (fun c => c.product_id) = d.map (fun c => c.product_id) := by
          rw [List.map_map]
          exact List.map_congr_left (fun a _ => hpidf a)
        rw [hmaps]
        exact h1
      · intro c hc
        obtain ⟨x, hx, hfx⟩ := List.mem_map.mp hc
        by_cases hxp : x.product_id = r.product_id
        · rw [if_pos hxp] at hfx
          subst hfx
          refine ⟨List.mem_append_right _ (List.mem_singleton_self _), ?_, ?_⟩
          · intro y hy hyp
            rcases List.mem_append.mp hy with hyL | hyr
            · exact le_of_lt (lt_of_le_of_lt (hLbound y hyL hyp) hlt)
            · rw [List.mem_singleton] at hyr
              replace hyr := hyr.symm
              subst hyr
              exact le_refl _
          · rw [List.find?_append]
            have hLnone : L.find?
                (fun y => decide (y.product_id = r.product_id ∧ r.score ≤ y.score)) = none := by
              rw [List.find?_eq_none]
              intro y hy
              simp only [decide_eq_true_eq, not_and, not_le]
              intro hyp
              exact lt_of_le_of_lt (hLbound y hy hyp) hlt
            rw [hLnone, Option.none_or]
            simp
        · rw [if_neg hxp] at hfx
          subst hfx
          obtain ⟨hxL, hxmax, hxfind⟩ := h2 x hx
          refine ⟨List.mem_append_left _ hxL, ?_, ?_⟩
          · intro y hy hyp
            rcases List.mem_append.mp hy with hyL | hyr
            · exact hxmax y hyL hyp
            · rw [List.mem_singleton] at hyr
              replace hyr := hyr.symm
              subst hyr
              exact absurd hyp.symm hxp
          · rw [List.find?_append, hxfind, Option.or_some]
      · intro y hy
        rcases List.mem_append.mp hy with hyL | hyr
        · obtain ⟨c, hc, hcp⟩ := h3 y hyL
          refine ⟨if c.product_id = r.product_id then r else c, List.mem_map_of_mem _ hc, ?_⟩
          rw [hpidf c]
          exact hcp
        · rw [List.mem_singleton] at hyr
          replace hyr := hyr.symm
          subst hyr
          refine ⟨if c0.product_id = r.product_id then r else c0, List.mem_map_of_mem _ hc0d, ?_⟩
          rw [hpidf c0, hc0p]
    · simp only [addRec, hfind, if_neg hlt]
      have hge : r.score ≤ c0.score := not_lt.mp hlt
      refine ⟨h1, ?_, ?_⟩
      · intro c hc
        obtain ⟨hcL, hcmax, hcfind⟩ := h2 c hc
        refine ⟨List.mem_append_left _ hcL, ?_, ?_⟩
        · intro x hx hpid
          rcases List.mem_append.mp hx with hxL | hxr
          · exact hcmax x hxL hpid
          · rw [List.mem_singleton] at hxr
            replace hxr := hxr.symm
            subst hxr
            have hcc0 : c = c0 := huniq c hc hpid.symm
            rw [hcc0]
            exact hge
        · rw [List.find?_append, hcfind, Option.or_some]
      · intro x hx
        rcases List.mem_append.mp hx with hxL | hxr
        · exact h3 x hxL
        · rw [List.mem_singleton] at hxr
          replace hxr := hxr.symm
          subst hxr
          exact ⟨c0, hc0d, hc0p⟩

/-- Folding one generator list preserves the invariant. -/
theorem addRecs_invariant (new : List Candidate) :
    ∀ (L d : List Candidate), goodDict L d → goodDict (L ++ new) (addRecs d new) := by
  induction new with
  | nil => intro L d h; simpa [addRecs] using h
  | cons r rest ih =>
    intro L d h
    have hstep := addRec_invariant L d r h
    have hrest := ih (L ++ [r]) (addRec d r) hstep
    simpa [addRecs, List.append_assoc] using hrest

/-- C2: the merge/rank stage of `recommend_for_user`.  For all candidate lists
fed in the fixed sequence (view, cart, purchase, profile), the output has at
most one entry per product id, at most 5 entries, is sorted descending by
score, and every surviving entry is the best entry for its product id among
the concatenated inputs: it appears there, its score is the maximum over all
input candidates with that product id, and it is the first input candidate
attaining that maximum (first writer wins on ties). -/
theorem merger_correct (view cart purchase profile : List Candidate) :
    ((mergeRecommendations view cart purchase profile).map (fun c => c.product_id)).Nodup ∧
    (mergeRecommendations view cart purchase profile).length ≤ 5 ∧
    (mergeRecommendations view cart purchase profile).Pairwise (fun a b => b.score ≤ a.score) ∧
    (∀ c ∈ mergeRecommendations view cart purchase profile,
      bestEntry (view ++ cart ++ purchase ++ profile) c) := by
  have h1 := addRecs_invariant view [] [] goodDict_nil
  have h2 := addRecs_invariant cart _ _ h1
  have h3 := addRecs_invariant purchase _ _ h2
  have h4 := addRecs_invariant profile _ _ h3
  have hg : goodDict (view ++ cart ++ purchase ++ profile)
      (addRecs (addRecs (addRecs (addRecs [] view) cart) purchase) profile) := by
    simpa [List.append_assoc] using h4
  have hperm := sortByDesc_perm (fun c => c.score)
    (addRecs (addRecs (addRecs (addRecs [] view) cart) purchase) profile)
  have hsub : List.Sublist (mergeRecommendations view cart purchase profile)
      (sortByDesc (fun c => c.score)
        (addRecs (addRecs (addRecs (addRecs [] view) cart) purchase) profile)) :=
    List.take_sublist 5 _
  refine ⟨?_, ?_, ?_, ?_⟩
  · have hnodS : ((sortByDesc (fun c => c.score)
        (addRecs (addRecs (addRecs (addRecs [] view) cart) purchase) profile)).map
        (fun c => c.product_id)).Nodup :=
      ((hperm.map (fun c => c.product_id)).nodup_iff).mpr hg.1
    exact List.Nodup.sublist (hsub.map _) hnodS
  · exact List.length_take_le 5 _
  · exact List.Pairwise.sublist hsub
      (sortByDesc_pairwise (fun c => c.score)
        (addRecs (addRecs (addRecs (addRecs [] view) cart) purchase) profile))
  · intro c hc
    have hcD := hperm.mem_iff.mp (hsub.subset hc)
    exact hg.2.1 c hcD

/-- C2, witness at a concrete input. -/
theorem merger_correct_witness :
    ((mergeRecommendations [⟨"A", 3, "view"⟩] [⟨"A", 5, "add_to_cart"⟩] [] []).map
      (fun c => c.product_id)).Nodup ∧
    (mergeRecommendations [⟨"A", 3, "view"⟩] [⟨"A", 5, "add_to_cart"⟩] [] []).length ≤ 5 ∧
    (mergeRecommendations [⟨"A", 3, "view"⟩] [⟨"A", 5, "add_to_cart"⟩] []
      []).Pairwise (fun a b => b.score ≤ a.score) ∧
    (∀ c ∈ mergeRecommendations [⟨"A", 3, "view"⟩] [⟨"A", 5, "add_to_cart"⟩] [] [],
      bestEntry ([⟨"A", 3, "view"⟩] ++ [⟨"A", 5, "add_to_cart"⟩] ++ [] ++ []) c) :=
  merger_correct [⟨"A", 3, "view"⟩] [⟨"A", 5, "add_to_cart"⟩] [] []

end
